import Mathlib

/-!
Shallow embedding of `src/Lab_2_4_LR2.py` (an educational linear-regression
toolkit built on numpy).

Modelling choices:
* numpy numeric scalars are modelled by `ℚ` (exact arithmetic), except in
  `evaluate_regression`, where `np.sqrt` forces real numbers (`ℝ`).
* a numpy 2D array is a `List (List ℚ)` (row-major); a 1D array is `List ℚ`.
* `np.linalg.inv` (an external LAPACK call) is modelled by the exact matrix
  inverse `det⁻¹ • adjugate`, which coincides with Mathlib's `Matrix.inv`.
* `np.random.rand` draws are passed in as explicit parameters
  (`rand_coeffs`, `rand_intercept`): the embedding is parametric in the
  random source.
* Python exceptions (`raise ValueError`) are modelled by `Except String`.
* cells of the array passed to `one_hot_encode` may be strings (numpy
  converts a mixed `[[1,"a"],…]` literal to a string array), so the
  encoder is parametric in a linearly ordered cell type `α`; the `0`/`1`
  written by `.astype(int)` and coerced by `np.hstack` to the array dtype
  are the explicit parameters `zero`, `one`.
-/

/-- Dot product of two equally long numeric lists, `np.dot` on 1D arrays. -/
def dotL (a b : List ℚ) : ℚ := (List.zipWith (· * ·) a b).sum

/-- Column count of a row-major 2D array (length of its first row). -/
def width {α : Type} (M : List (List α)) : ℕ := (M.headD []).length

/-- `np.transpose` on a (rectangular) 2D array. -/
def transposeL (M : List (List ℚ)) : List (List ℚ) :=
  (List.range (width M)).map (fun j => M.map (fun r => r.getD j 0))

/-- `np.dot` of a 2D array with a 1D array (matrix–vector product). -/
def matVecL (M : List (List ℚ)) (v : List ℚ) : List ℚ := M.map (fun r => dotL r v)

/-- `np.dot` of two 2D arrays (matrix–matrix product). -/
def matMulL (A B : List (List ℚ)) : List (List ℚ) :=
  A.map (fun r => (transposeL B).map (fun c => dotL r c))

/-- View a row-major list matrix as a Mathlib matrix of the given shape. -/
def toMat (m n : ℕ) (M : List (List ℚ)) : Matrix (Fin m) (Fin n) ℚ :=
  Matrix.of fun i j => (M.getD i []).getD j 0

/-- Render a Mathlib matrix back as a row-major list matrix. -/
def matToList {m n : ℕ} (A : Matrix (Fin m) (Fin n) ℚ) : List (List ℚ) :=
  (List.finRange m).map (fun i => (List.finRange n).map (fun j => A i j))

/-- Model of `np.linalg.inv`: the exact inverse `det⁻¹ • adjugate` of the
square matrix whose order is the row count of `M`. -/
def np_linalg_inv (M : List (List ℚ)) : List (List ℚ) :=
  let n := M.length
  let A := toMat n n M
  matToList ((A.det)⁻¹ • A.adjugate)

/-- Rectangularity: `M` is an `m × w` row-major array (numpy arrays carry
their shape; the list embedding records it through this predicate). -/
def Rect {α : Type} (M : List (List α)) (m w : ℕ) : Prop :=
  M.length = m ∧ width M = w ∧ ∀ r ∈ M, r.length = w

instance {α : Type} (M : List (List α)) (m w : ℕ) : Decidable (Rect M m w) := by
  unfold Rect; infer_instance

/-- Model state of `LinearRegressor.__init__`: both fields start as `None`. -/
structure LinearRegressor where
  coefficients : Option (List ℚ)
  intercept : Option ℚ
  deriving DecidableEq, Repr

/-- A numpy array argument that may be 1-dimensional or 2-dimensional
(the code dispatches on `np.ndim`). -/
inductive NpInput where
  | one (v : List ℚ)
  | two (rows : List (List ℚ))
  deriving DecidableEq, Repr

/-- `LinearRegressor.fit_multiple`: normal-equation fit on the already
bias-augmented matrix `X`; `w = inv(Xᵀ X) · Xᵀ · y`, intercept `w[0]`,
coefficients `w[1:]`. -/
def fit_multiple (self : LinearRegressor) (X : List (List ℚ)) (y : List ℚ) :
    LinearRegressor :=
  let X_transpose := transposeL X
  let w := matVecL (matMulL (np_linalg_inv (matMulL X_transpose X)) X_transpose) y
  { self with intercept := some (w.getD 0 0), coefficients := some w.tail }

/-- One pass of the `for epoch in range(iterations)` body of
`fit_gradient_descent`, from current `(intercept, coefficients)`:
returns the updated parameters and the `mse` recorded this iteration. -/
def gdIterBody (X : List (List ℚ)) (y : List ℚ) (learning_rate : ℚ)
    (p : ℚ × List ℚ) : (ℚ × List ℚ) × ℚ :=
  let m : ℚ := (y.length : ℚ)
  let predictions := matVecL X (p.1 :: p.2)
  let error := List.zipWith (· - ·) predictions y
  let gradient := (matVecL (transposeL X) error).map (fun g => 1 / m * g)
  let intercept := p.1 - learning_rate * gradient.getD 0 0
  let coefficients := List.zipWith (fun w g => w - learning_rate * g) p.2 gradient.tail
  let mse := 1 / m * (error.map (fun e => e ^ 2)).sum
  ((intercept, coefficients), mse)

/-- The gradient-descent loop: runs the body `n` times from parameters `p`,
returning the final parameters and the three histories
`(loss_history, b_history, w_history)` in iteration order. -/
def gdLoop (X : List (List ℚ)) (y : List ℚ) (learning_rate : ℚ) :
    ℕ → ℚ × List ℚ → (ℚ × List ℚ) × (List ℚ × List ℚ × List (List ℚ))
  | 0, p => (p, ([], [], []))
  | n + 1, p =>
    let r := gdIterBody X y learning_rate p
    let rest := gdLoop X y learning_rate n r.1
    (rest.1, (r.2 :: rest.2.1, r.1.1 :: rest.2.2.1, r.1.2 :: rest.2.2.2))

/-- `LinearRegressor.fit_gradient_descent` on the bias-augmented `X`:
initialises parameters from the scaled random draws and runs the loop;
returns the new model state together with the returned triple
`(loss_history, b_history, w_history)`. -/
def fit_gradient_descent (self : LinearRegressor) (X : List (List ℚ))
    (y : List ℚ) (learning_rate : ℚ) (iterations : ℕ)
    (rand_coeffs : List ℚ) (rand_intercept : ℚ) :
    LinearRegressor × (List ℚ × List ℚ × List (List ℚ)) :=
  let init : ℚ × List ℚ :=
    (rand_intercept * (1 / 100), rand_coeffs.map (fun c => c * (1 / 100)))
  let r := gdLoop X y learning_rate iterations init
  ({ self with intercept := some r.1.1, coefficients := some r.1.2 }, r.2)

/-- `LinearRegressor.fit`: validates `method`, reshapes a 1D `X` to a single
column, prepends the bias column, then dispatches.  The `least_squares`
branch returns `none` (the Python function returns `None` there); the
`gradient_descent` branch returns `some` fit trace. -/
def fit (self : LinearRegressor) (X : NpInput) (y : List ℚ) (method : String)
    (learning_rate : ℚ) (iterations : ℕ)
    (rand_coeffs : List ℚ) (rand_intercept : ℚ) :
    Except String (LinearRegressor × Option (List ℚ × List ℚ × List (List ℚ))) :=
  if method ∉ (["least_squares", "gradient_descent"] : List String) then
    Except.error ("Method " ++ method ++ " not available for training linear regression.")
  else
    let Xmat :=
      match X with
      | NpInput.one v => v.map (fun x => [x])
      | NpInput.two rows => rows
    let X_with_bias := Xmat.map (fun r => (1 : ℚ) :: r)
    if method = "least_squares" then
      Except.ok (fit_multiple self X_with_bias y, none)
    else
      let r := fit_gradient_descent self X_with_bias y learning_rate iterations
        rand_coeffs rand_intercept
      Except.ok (r.1, some r.2)

/-- Elementwise numpy multiplication with broadcasting of length-1 operands
(`self.coefficients * X` in the 1D branch of `predict`). -/
def npBroadcastMul (a b : List ℚ) : Except String (List ℚ) :=
  if a.length = b.length then Except.ok (List.zipWith (· * ·) a b)
  else if a.length = 1 then Except.ok (b.map (fun x => a.headD 0 * x))
  else if b.length = 1 then Except.ok (a.map (fun x => x * b.headD 0))
  else Except.error "operands could not be broadcast together"

/-- `LinearRegressor.predict`: raises when either parameter is still `None`,
otherwise applies the linear model to a 1D or 2D input. -/
def predict (self : LinearRegressor) (X : NpInput) : Except String (List ℚ) :=
  match self.coefficients, self.intercept with
  | some coefficients, some intercept =>
    match X with
    | NpInput.one v =>
      (npBroadcastMul coefficients v).map (fun p => p.map (fun x => intercept + x))
    | NpInput.two rows =>
      if width rows = coefficients.length then
        Except.ok ((matVecL rows coefficients).map (fun x => intercept + x))
      else
        Except.error "shapes not aligned"
  | _, _ => Except.error "Model is not yet fitted"

/-- The model state an in-place Python call leaves behind: the updated state
on success, the unchanged receiver when the call raised. -/
def stateAfterFit (self : LinearRegressor)
    (r : Except String (LinearRegressor × Option (List ℚ × List ℚ × List (List ℚ)))) :
    LinearRegressor :=
  match r with
  | Except.ok (st, _) => st
  | Except.error _ => self

/-- `np.mean` of a 1D real array. -/
noncomputable def npMean (l : List ℝ) : ℝ := l.sum / l.length

/-- `evaluate_regression`: R², RMSE and MAE of a prediction, returned as the
three-entry dictionary `{"R2": …, "RMSE": …, "MAE": …}`. -/
noncomputable def evaluate_regression (y_true y_pred : List ℝ) : List (String × ℝ) :=
  let rss := ((List.zipWith (· - ·) y_true y_pred).map (fun e => e ^ 2)).sum
  let tss := ((y_true.map (fun v => v - npMean y_true)).map (fun e => e ^ 2)).sum
  let r_squared := 1 - rss / tss
  let mse := 1 / (y_true.length : ℝ) *
    ((List.zipWith (· - ·) y_true y_pred).map (fun e => e ^ 2)).sum
  let rmse := Real.sqrt mse
  let mae := 1 / (y_true.length : ℝ) *
    ((List.zipWith (· - ·) y_true y_pred).map (fun e => |e|)).sum
  [("R2", r_squared), ("RMSE", rmse), ("MAE", mae)]

/-- `np.unique`: the sorted list of distinct values of a 1D array. -/
def np_unique {α : Type} [LinearOrder α] (l : List α) : List α :=
  (List.insertionSort (· ≤ ·) l).dedup

/-- Body of the `for index in sorted(categorical_indices, reverse=True)` loop
of `one_hot_encode`: replace column `index` of `Xt` by the one-hot block of
its value domain. -/
def one_hot_step {α : Type} [LinearOrder α] (zero one : α) (drop_first : Bool)
    (Xt : List (List α)) (index : ℕ) : List (List α) :=
  let categorical_column := Xt.map (fun r => r.getD index zero)
  let unique_values := np_unique categorical_column
  let unique_values := if drop_first then unique_values.tail else unique_values
  let one_hot := categorical_column.map
    (fun c => unique_values.map (fun u => if c = u then one else zero))
  let Xdel := Xt.map (fun r => r.eraseIdx index)
  List.zipWith (fun r h => List.take index r ++ h ++ List.drop index r) Xdel one_hot

/-- `one_hot_encode`: one-hot encode the listed columns, processing indices
in descending order. -/
def one_hot_encode {α : Type} [LinearOrder α] (zero one : α)
    (X : List (List α)) (categorical_indices : List ℕ) (drop_first : Bool) :
    List (List α) :=
  let X_transformed := X
  ((List.insertionSort (· ≤ ·) categorical_indices).reverse).foldl
    (one_hot_step zero one drop_first) X_transformed

/-! ### General list lemmas -/

theorem getD_map_of_lt {α β : Type} (f : α → β) (l : List α) {j : ℕ}
    (hj : j < l.length) (d : β) (d₀ : α) : (l.map f).getD j d = f (l.getD j d₀) := by
  rw [List.getD_eq_getElem _ _ (by simpa using hj), List.getD_eq_getElem _ _ hj,
    List.getElem_map]

theorem getD_zipWith_of_lt {α β γ : Type} (f : α → β → γ) (a : List α) (b : List β)
    {j : ℕ} (hja : j < a.length) (hjb : j < b.length) (d : γ) (da : α) (db : β) :
    (List.zipWith f a b).getD j d = f (a.getD j da) (b.getD j db) := by
  have hj : j < (List.zipWith f a b).length := by
    rw [List.length_zipWith]; omega
  rw [List.getD_eq_getElem _ _ hj, List.getD_eq_getElem _ _ hja,
    List.getD_eq_getElem _ _ hjb, List.getElem_zipWith]

theorem getD_tail {α : Type} (l : List α) (j : ℕ) (d : α) :
    l.tail.getD j d = l.getD (j + 1) d := by
  cases l <;> simp

theorem dotL_eq_sum {a b : List ℚ} {n : ℕ} (ha : a.length = n) (hb : b.length = n) :
    dotL a b = ∑ i : Fin n, a.getD i 0 * b.getD i 0 := by
  induction n generalizing a b with
  | zero =>
    rw [List.length_eq_zero] at ha hb
    subst ha; subst hb; simp [dotL]
  | succ n ih =>
    cases a with
    | nil => simp at ha
    | cons x a' =>
      cases b with
      | nil => simp at hb
      | cons y b' =>
        simp only [List.length_cons, Nat.succ_inj] at ha hb
        simp only [dotL, List.zipWith_cons_cons, List.sum_cons, Fin.sum_univ_succ,
          Fin.val_zero, List.getD_cons_zero, Fin.val_succ, List.getD_cons_succ]
        rw [← dotL, ih ha hb]

theorem list_eq_finRange_map {l : List ℚ} {n : ℕ} (hl : l.length = n)
    (f : Fin n → ℚ) (h : ∀ i : Fin n, l.getD i 0 = f i) :
    l = (List.finRange n).map f := by
  apply List.ext_getElem (by simpa using hl)
  intro j h₁ h₂
  have hj : j < n := by simpa using h₂
  rw [List.getElem_map, List.getElem_finRange]
  have := h ⟨j, hj⟩
  rw [List.getD_eq_getElem _ _ h₁] at this
  simpa using this

/-! ### C7, C8, C9 -/

/-- C7: calling `fit` with a method other than `"least_squares"` and
`"gradient_descent"` raises the ValueError before any computation, and the
post-call model state equals the receiver's state (unset fields stay unset). -/
theorem fit_invalid_method (self : LinearRegressor) (X : NpInput) (y : List ℚ)
    (method : String) (learning_rate : ℚ) (iterations : ℕ)
    (rand_coeffs : List ℚ) (rand_intercept : ℚ)
    (h1 : method ≠ "least_squares") (h2 : method ≠ "gradient_descent") :
    fit self X y method learning_rate iterations rand_coeffs rand_intercept =
      Except.error ("Method " ++ method ++ " not available for training linear regression.") ∧
    stateAfterFit self
      (fit self X y method learning_rate iterations rand_coeffs rand_intercept) = self := by
  have hmem : method ∉ (["least_squares", "gradient_descent"] : List String) := by
    simp [h1, h2]
  have herr : fit self X y method learning_rate iterations rand_coeffs rand_intercept =
      Except.error ("Method " ++ method ++ " not available for training linear regression.") := by
    unfold fit
    rw [if_pos hmem]
  exact ⟨herr, by rw [herr]; rfl⟩

/-- C8: `predict` on a model whose `coefficients` or `intercept` is still
`None` raises the not-fitted ValueError, for every input. -/
theorem predict_not_fitted (self : LinearRegressor) (X : NpInput)
    (h : self.coefficients = none ∨ self.intercept = none) :
    predict self X = Except.error "Model is not yet fitted" := by
  obtain ⟨c, b⟩ := self
  rcases h with h | h <;> simp only at h <;> subst h
  · cases b <;> rfl
  · cases c <;> rfl

/-- C9: `fit` on a 1-dimensional `X` behaves exactly like `fit` on the
matrix obtained by reshaping `X` into a single column (one row per value). -/
theorem fit_one_dim (self : LinearRegressor) (v : List ℚ) (y : List ℚ)
    (method : String) (learning_rate : ℚ) (iterations : ℕ)
    (rand_coeffs : List ℚ) (rand_intercept : ℚ) :
    fit self (NpInput.one v) y method learning_rate iterations rand_coeffs rand_intercept =
      fit self (NpInput.two (v.map (fun x => [x]))) y method learning_rate iterations
        rand_coeffs rand_intercept := rfl

/-- Witness for C7 at the concrete method name `"foo"` on a fresh model. -/
theorem fit_invalid_method_witness :
    ("foo" ≠ "least_squares" ∧ "foo" ≠ "gradient_descent") ∧
    (fit { coefficients := none, intercept := none } (NpInput.two [[1], [2]]) [1, 2]
        "foo" 1 3 [0] 0 =
      Except.error "Method foo not available for training linear regression." ∧
    stateAfterFit { coefficients := none, intercept := none }
        (fit { coefficients := none, intercept := none } (NpInput.two [[1], [2]]) [1, 2]
          "foo" 1 3 [0] 0) =
      { coefficients := none, intercept := none }) :=
  ⟨⟨by decide, by decide⟩,
    fit_invalid_method { coefficients := none, intercept := none }
      (NpInput.two [[1], [2]]) [1, 2] "foo" 1 3 [0] 0 (by decide) (by decide)⟩

/-- Witness for C8 on a freshly constructed (never fitted) model. -/
theorem predict_not_fitted_witness :
    ((LinearRegressor.mk none none).coefficients = none ∨
      (LinearRegressor.mk none none).intercept = none) ∧
    predict (LinearRegressor.mk none none) (NpInput.one [1, 2]) =
      Except.error "Model is not yet fitted" :=
  ⟨Or.inl rfl,
    predict_not_fitted (LinearRegressor.mk none none) (NpInput.one [1, 2]) (Or.inl rfl)⟩

/-! ### C3: the gradient-descent loop runs exactly `iterations` steps -/

/-- The parameter-update part of one gradient-descent iteration. -/
def gdStep (X : List (List ℚ)) (y : List ℚ) (learning_rate : ℚ)
    (p : ℚ × List ℚ) : ℚ × List ℚ :=
  (gdIterBody X y learning_rate p).1

/-- The initial `(intercept, coefficients)` built from the `np.random.rand`
draws scaled by `0.01`. -/
def gdInit (rand_coeffs : List ℚ) (rand_intercept : ℚ) : ℚ × List ℚ :=
  (rand_intercept * (1 / 100), rand_coeffs.map (fun c => c * (1 / 100)))

theorem gdLoop_fst (X : List (List ℚ)) (y : List ℚ) (learning_rate : ℚ) :
    ∀ (n : ℕ) (p : ℚ × List ℚ),
      (gdLoop X y learning_rate n p).1 = (gdStep X y learning_rate)^[n] p := by
  intro n
  induction n with
  | zero => intro p; rfl
  | succ n ih =>
    intro p
    simp only [gdLoop, ih, Function.iterate_succ_apply, gdStep]

theorem gdLoop_lengths (X : List (List ℚ)) (y : List ℚ) (learning_rate : ℚ) :
    ∀ (n : ℕ) (p : ℚ × List ℚ),
      (gdLoop X y learning_rate n p).2.1.length = n ∧
      (gdLoop X y learning_rate n p).2.2.1.length = n ∧
      (gdLoop X y learning_rate n p).2.2.2.length = n := by
  intro n
  induction n with
  | zero => intro p; exact ⟨rfl, rfl, rfl⟩
  | succ n ih =>
    intro p
    have h := ih (gdIterBody X y learning_rate p).1
    simp only [gdLoop, List.length_cons, h.1, h.2.1, h.2.2]
    exact ⟨trivial, trivial, trivial⟩

theorem gdLoop_entries (X : List (List ℚ)) (y : List ℚ) (learning_rate : ℚ) :
    ∀ (n : ℕ) (p : ℚ × List ℚ) (k : ℕ), k < n →
      (gdLoop X y learning_rate n p).2.1.getD k 0 =
        (gdIterBody X y learning_rate ((gdStep X y learning_rate)^[k] p)).2 ∧
      (gdLoop X y learning_rate n p).2.2.1.getD k 0 =
        ((gdStep X y learning_rate)^[k + 1] p).1 ∧
      (gdLoop X y learning_rate n p).2.2.2.getD k [] =
        ((gdStep X y learning_rate)^[k + 1] p).2 := by
  intro n
  induction n with
  | zero => intro p k hk; omega
  | succ n ih =>
    intro p k hk
    cases k with
    | zero =>
      simp only [gdLoop, List.getD_cons_zero, Function.iterate_zero_apply,
        Function.iterate_one]
      exact ⟨trivial, rfl, rfl⟩
    | succ k =>
      have h := ih (gdStep X y learning_rate p) k (by omega)
      simp only [gdLoop, List.getD_cons_succ]
      refine ⟨?_, ?_, ?_⟩
      · rw [show (gdIterBody X y learning_rate p).1 = gdStep X y learning_rate p from rfl,
          h.1, ← Function.iterate_succ_apply]
      · rw [show (gdIterBody X y learning_rate p).1 = gdStep X y learning_rate p from rfl,
          h.2.1, ← Function.iterate_succ_apply]
      · rw [show (gdIterBody X y learning_rate p).1 = gdStep X y learning_rate p from rfl,
          h.2.2, ← Function.iterate_succ_apply]

/-- C3: for every input and `iterations ≥ 1`, `fit_gradient_descent` runs the
loop body exactly `iterations` times (final parameters are the
`iterations`-fold iterate of the step function, with no early-stop), and the
three returned histories (loss, intercept, coefficient vector) all have
length `iterations`; entry `k` of each history is the value recorded at
iteration `k`: the mse of the pre-update parameters and the snapshot of the
parameters right after update `k + 1` (so each coefficient snapshot is the
value at that iteration, not the final live vector). -/
theorem fit_gradient_descent_trace (self : LinearRegressor) (X : List (List ℚ))
    (y : List ℚ) (learning_rate : ℚ) (iterations : ℕ)
    (rand_coeffs : List ℚ) (rand_intercept : ℚ) (hits : 1 ≤ iterations) :
    (fit_gradient_descent self X y learning_rate iterations rand_coeffs
        rand_intercept).2.1.length = iterations ∧
    (fit_gradient_descent self X y learning_rate iterations rand_coeffs
        rand_intercept).2.2.1.length = iterations ∧
    (fit_gradient_descent self X y learning_rate iterations rand_coeffs
        rand_intercept).2.2.2.length = iterations ∧
    (fit_gradient_descent self X y learning_rate iterations rand_coeffs
        rand_intercept).1 =
      { self with
        intercept := some (((gdStep X y learning_rate)^[iterations]
          (gdInit rand_coeffs rand_intercept)).1),
        coefficients := some (((gdStep X y learning_rate)^[iterations]
          (gdInit rand_coeffs rand_intercept)).2) } ∧
    ∀ k, k < iterations →
      (fit_gradient_descent self X y learning_rate iterations rand_coeffs
          rand_intercept).2.1.getD k 0 =
        (gdIterBody X y learning_rate ((gdStep X y learning_rate)^[k]
          (gdInit rand_coeffs rand_intercept))).2 ∧
      (fit_gradient_descent self X y learning_rate iterations rand_coeffs
          rand_intercept).2.2.1.getD k 0 =
        ((gdStep X y learning_rate)^[k + 1] (gdInit rand_coeffs rand_intercept)).1 ∧
      (fit_gradient_descent self X y learning_rate iterations rand_coeffs
          rand_intercept).2.2.2.getD k [] =
        ((gdStep X y learning_rate)^[k + 1] (gdInit rand_coeffs rand_intercept)).2 := by
  have hlen := gdLoop_lengths X y learning_rate iterations
    (gdInit rand_coeffs rand_intercept)
  have hfst := gdLoop_fst X y learning_rate iterations
    (gdInit rand_coeffs rand_intercept)
  refine ⟨hlen.1, hlen.2.1, hlen.2.2, ?_, ?_⟩
  · show ({ self with
        intercept := some ((gdLoop X y learning_rate iterations
          (gdInit rand_coeffs rand_intercept)).1.1),
        coefficients := some ((gdLoop X y learning_rate iterations
          (gdInit rand_coeffs rand_intercept)).1.2) } : LinearRegressor) = _
    rw [hfst]
  · intro k hk
    exact gdLoop_entries X y learning_rate iterations
      (gdInit rand_coeffs rand_intercept) k hk

/-- Witness for C3 at a concrete one-iteration run. -/
theorem fit_gradient_descent_trace_witness :
    1 ≤ 1 ∧
    (fit_gradient_descent (LinearRegressor.mk none none) [[1, 1], [1, 2]] [1, 2]
        (1 / 2) 1 [0] 0).2.1.length = 1 :=
  ⟨by decide,
    (fit_gradient_descent_trace (LinearRegressor.mk none none) [[1, 1], [1, 2]] [1, 2]
      (1 / 2) 1 [0] 0 (by decide)).1⟩

/-! ### Correspondence between the list operations and Mathlib matrices -/

theorem rect_row_length {M : List (List ℚ)} {m w : ℕ} (h : Rect M m w) {i : ℕ}
    (hi : i < M.length) : (M.getD i []).length = w := by
  rw [List.getD_eq_getElem _ _ hi]
  exact h.2.2 _ (List.getElem_mem hi)

theorem transposeL_length (M : List (List ℚ)) : (transposeL M).length = width M := by
  simp [transposeL]

theorem transposeL_rect {M : List (List ℚ)} {m w : ℕ} (h : Rect M m w)
    (hw : 1 ≤ w) : Rect (transposeL M) w m := by
  refine ⟨by rw [transposeL_length, h.2.1], ?_, ?_⟩
  · have hww : width M = w := h.2.1
    have : transposeL M = (List.range w).map (fun j => M.map (fun r => r.getD j 0)) := by
      rw [transposeL, hww]
    rw [this]
    cases w with
    | zero => omega
    | succ w' =>
      simp [width, List.range_succ_eq_map, h.1]
  · intro r hr
    rw [transposeL] at hr
    obtain ⟨j, _, rfl⟩ := List.mem_map.mp hr
    simp [h.1]

theorem getD_range {n j : ℕ} (hj : j < n) (d : ℕ) : (List.range n).getD j d = j := by
  rw [List.getD_eq_getElem _ _ (by simpa using hj), List.getElem_range]

theorem transposeL_getD {M : List (List ℚ)} {m w : ℕ} (h : Rect M m w) {j : ℕ}
    (hj : j < w) : (transposeL M).getD j [] = M.map (fun r => r.getD j 0) := by
  rw [transposeL, h.2.1]
  rw [getD_map_of_lt _ _ (by simpa using hj) _ 0, getD_range hj]

theorem toMat_transposeL {M : List (List ℚ)} {m w : ℕ} (h : Rect M m w) :
    toMat w m (transposeL M) = (toMat m w M).transpose := by
  funext j i
  show ((transposeL M).getD j []).getD i 0 = (M.getD i []).getD j 0
  rw [transposeL_getD h j.isLt, getD_map_of_lt _ _ (by rw [h.1]; exact i.isLt) _ []]

theorem matVecL_length (M : List (List ℚ)) (v : List ℚ) :
    (matVecL M v).length = M.length := by simp [matVecL]

theorem matVecL_getD {M : List (List ℚ)} {m w : ℕ} (h : Rect M m w)
    {v : List ℚ} (hv : v.length = w) (i : Fin m) :
    (matVecL M v).getD i 0 =
      (toMat m w M).mulVec (fun j : Fin w => v.getD j 0) i := by
  have hi : (i : ℕ) < M.length := by rw [h.1]; exact i.isLt
  rw [matVecL, getD_map_of_lt _ _ hi _ []]
  rw [dotL_eq_sum (rect_row_length h hi) hv]
  simp [Matrix.mulVec, Matrix.dotProduct, toMat]


/-! ### C2: the gradient-descent update formula -/

/-- Spec-side gradient of one iteration, written in matrix language
(`gradient = (1/m) · X_biasedᵀ · (X_biased·[b,w] − y)`), for a model with
`w.length` feature coefficients. -/
def specGradient (X : List (List ℚ)) (y : List ℚ) (m : ℕ) (b : ℚ) (w : List ℚ) :
    Fin (w.length + 1) → ℚ :=
  fun j =>
    1 / (m : ℚ) *
      (toMat m (w.length + 1) X).transpose.mulVec
        (fun i => (toMat m (w.length + 1) X).mulVec
          (fun j' : Fin (w.length + 1) => (b :: w).getD j' 0) i - y.getD i 0) j

theorem gd_gradient_getD (X : List (List ℚ)) (y : List ℚ) (b : ℚ) (w : List ℚ)
    (m : ℕ) (hX : Rect X m (w.length + 1)) (hy : y.length = m)
    (j : ℕ) (hj : j < w.length + 1) :
    ((matVecL (transposeL X) (List.zipWith (· - ·) (matVecL X (b :: w)) y)).map
        (fun g => 1 / (y.length : ℚ) * g)).getD j 0 =
      specGradient X y m b w ⟨j, hj⟩ := by
  have hT : Rect (transposeL X) (w.length + 1) m := transposeL_rect hX (by omega)
  have herrlen : (List.zipWith (· - ·) (matVecL X (b :: w)) y).length = m := by
    rw [List.length_zipWith, matVecL_length, hX.1, hy]; omega
  have hjlt : j < (matVecL (transposeL X)
      (List.zipWith (· - ·) (matVecL X (b :: w)) y)).length := by
    rw [matVecL_length, transposeL_length, hX.2.1]; exact hj
  rw [getD_map_of_lt _ _ hjlt _ 0]
  rw [show (⟨j, hj⟩ : Fin (w.length + 1)) = (⟨j, hj⟩ : Fin (w.length + 1)) from rfl]
  have := matVecL_getD hT herrlen ⟨j, hj⟩
  rw [this]
  simp only [specGradient, hy]
  congr 1
  rw [toMat_transposeL hX]
  congr 1
  funext i
  rw [getD_zipWith_of_lt _ _ _ (by rw [matVecL_length, hX.1]; exact i.isLt)
    (by rw [hy]; exact i.isLt) _ 0 0]
  rw [matVecL_getD hX (by simp) i]

/-- C2: each iteration of the gradient-descent loop computes
`predictions = X_biased·[intercept, coefficients]`,
`error = predictions − y`, `gradient = (1/m)·X_biasedᵀ·error` with `m` the
row count of `X_biased`, and then updates
`intercept ← intercept − learning_rate·gradient[0]` and
`coefficients ← coefficients − learning_rate·gradient[1:]` elementwise. -/
theorem gd_update_formula (X : List (List ℚ)) (y : List ℚ)
    (learning_rate b : ℚ) (w : List ℚ) (m : ℕ)
    (hX : Rect X m (w.length + 1)) (hy : y.length = m) :
    (gdIterBody X y learning_rate (b, w)).1.1 =
      b - learning_rate * specGradient X y m b w 0 ∧
    (gdIterBody X y learning_rate (b, w)).1.2.length = w.length ∧
    ∀ j : Fin w.length,
      (gdIterBody X y learning_rate (b, w)).1.2.getD j 0 =
        w.getD j 0 - learning_rate * specGradient X y m b w j.succ := by
  have hgradlen : ((matVecL (transposeL X)
      (List.zipWith (· - ·) (matVecL X (b :: w)) y)).map
        (fun g => 1 / (y.length : ℚ) * g)).length = w.length + 1 := by
    rw [List.length_map, matVecL_length, transposeL_length, hX.2.1]
  have e : gdIterBody X y learning_rate (b, w) =
      ((b - learning_rate * ((matVecL (transposeL X)
          (List.zipWith (· - ·) (matVecL X (b :: w)) y)).map
            (fun g => 1 / (y.length : ℚ) * g)).getD 0 0,
        List.zipWith (fun wi g => wi - learning_rate * g) w
          ((matVecL (transposeL X)
            (List.zipWith (· - ·) (matVecL X (b :: w)) y)).map
              (fun g => 1 / (y.length : ℚ) * g)).tail),
       1 / (y.length : ℚ) *
        ((List.zipWith (· - ·) (matVecL X (b :: w)) y).map (fun e => e ^ 2)).sum) := rfl
  refine ⟨?_, ?_, ?_⟩
  · rw [e]
    show b - learning_rate * _ = _
    rw [gd_gradient_getD X y b w m hX hy 0 (by omega)]
    rfl
  · rw [e]
    show (List.zipWith _ w _).length = _
    rw [List.length_zipWith, List.length_tail, hgradlen]
    omega
  · intro j
    rw [e]
    show (List.zipWith _ w _).getD _ 0 = _
    rw [getD_zipWith_of_lt _ _ _ j.isLt
      (by rw [List.length_tail, hgradlen]; omega) _ 0 0]
    rw [getD_tail]
    rw [gd_gradient_getD X y b w m hX hy (j + 1) (by omega)]
    rfl

/-- Witness for C2 on a concrete 2×2 bias-augmented matrix. -/
theorem gd_update_formula_witness :
    (Rect [[1, 1], [1, 2]] 2 ([(0 : ℚ)].length + 1) ∧ ([1, 2] : List ℚ).length = 2) ∧
    (gdIterBody [[1, 1], [1, 2]] [1, 2] (1 / 2) ((0 : ℚ), [(0 : ℚ)])).1.1 =
      0 - 1 / 2 * specGradient [[1, 1], [1, 2]] [1, 2] 2 0 [0] 0 :=
  ⟨⟨by decide, by decide⟩,
    (gd_update_formula [[1, 1], [1, 2]] [1, 2] (1 / 2) 0 [0] 2 (by decide) (by decide)).1⟩

/-! ### C1: least-squares fit solves the normal equation -/

theorem matMulL_rect {A B : List (List ℚ)} {m n p : ℕ}
    (hA : Rect A m n) (hB : Rect B n p) (hm : 1 ≤ m) :
    Rect (matMulL A B) m p := by
  refine ⟨by simp [matMulL, hA.1], ?_, ?_⟩
  · cases A with
    | nil => exact absurd hA.1 (by simp; omega)
    | cons r A' =>
      show ((transposeL B).map _).length = p
      rw [List.length_map, transposeL_length, hB.2.1]
  · intro r hr
    obtain ⟨r₀, _, rfl⟩ := List.mem_map.mp hr
    rw [List.length_map, transposeL_length, hB.2.1]

theorem toMat_matMulL {A B : List (List ℚ)} {m n p : ℕ}
    (hA : Rect A m n) (hB : Rect B n p) :
    toMat m p (matMulL A B) = toMat m n A * toMat n p B := by
  funext i j
  show ((matMulL A B).getD i []).getD j 0 = _
  rw [matMulL, getD_map_of_lt _ _ (by rw [hA.1]; exact i.isLt) _ []]
  rw [getD_map_of_lt _ _ (by rw [transposeL_length, hB.2.1]; exact j.isLt) _ []]
  rw [transposeL_getD hB j.isLt]
  rw [dotL_eq_sum (rect_row_length hA (by rw [hA.1]; exact i.isLt)) (by simp [hB.1])]
  rw [Matrix.mul_apply]
  refine Finset.sum_congr rfl (fun k _ => ?_)
  rw [getD_map_of_lt _ _ (by rw [hB.1]; exact k.isLt) _ []]
  rfl

theorem toMat_matToList {m n : ℕ} (A : Matrix (Fin m) (Fin n) ℚ) :
    toMat m n (matToList A) = A := by
  funext i j
  show ((matToList A).getD i []).getD j 0 = A i j
  rw [matToList, getD_map_of_lt _ _ (by simpa using i.isLt) _ i]
  rw [getD_map_of_lt _ _ (by simpa using j.isLt) _ j]
  have hi : (List.finRange m).getD i i = i := by
    rw [List.getD_eq_getElem _ _ (by simpa using i.isLt), List.getElem_finRange]
    simp
  have hj : (List.finRange n).getD j j = j := by
    rw [List.getD_eq_getElem _ _ (by simpa using j.isLt), List.getElem_finRange]
    simp
  rw [hi, hj]

theorem matToList_rect {m n : ℕ} (A : Matrix (Fin m) (Fin n) ℚ) (hm : 1 ≤ m) :
    Rect (matToList A) m n := by
  refine ⟨by simp [matToList], ?_, ?_⟩
  · cases m with
    | zero => omega
    | succ m' =>
      show width ((List.finRange (m' + 1)).map _) = n
      rw [List.finRange_succ]
      simp [width]
  · intro r hr
    obtain ⟨i, _, rfl⟩ := List.mem_map.mp hr
    simp

theorem np_linalg_inv_eq {M : List (List ℚ)} {n : ℕ} (h : M.length = n) :
    np_linalg_inv M = matToList ((toMat n n M)⁻¹) := by
  subst h
  rw [np_linalg_inv, Matrix.inv_def, Ring.inverse_eq_inv']

theorem biasAug_rect {X : List (List ℚ)} {m n : ℕ} (hX : Rect X m n) (hm : 1 ≤ m) :
    Rect (X.map (fun r => (1 : ℚ) :: r)) m (n + 1) := by
  refine ⟨by simp [hX.1], ?_, ?_⟩
  · cases X with
    | nil => exact absurd hX.1 (by simp; omega)
    | cons r X' =>
      have : width (r :: X') = n := hX.2.1
      simp only [width, List.headD_cons] at this
      simp [width, this]
  · intro r hr
    obtain ⟨r₀, hr₀, rfl⟩ := List.mem_map.mp hr
    simp [hX.2.2 r₀ hr₀]

/-- Spec-side normal-equation weight vector
`w = (XᵀX)⁻¹ Xᵀ y` over the bias-augmented design matrix, as stated in the
spec, written with Mathlib's matrix inverse. -/
noncomputable def normalEqWeights (m n : ℕ) (X : List (List ℚ)) (y : List ℚ) :
    Fin (n + 1) → ℚ :=
  let A := toMat m (n + 1) (X.map (fun r => (1 : ℚ) :: r))
  ((A.transpose * A)⁻¹ * A.transpose).mulVec (fun i => y.getD i 0)

/-- C1: for a 2D design matrix `X` and matching target `y` such that
`XᵀX` over the bias-augmented matrix is invertible, `fit` with
`"least_squares"` sets `intercept` to the first entry and `coefficients` to
the remaining entries (in feature order) of the normal-equation solution
`w = (XᵀX)⁻¹ Xᵀ y`, and returns nothing (`none`). -/
theorem fit_least_squares (self : LinearRegressor) (X : List (List ℚ))
    (y : List ℚ) (m n : ℕ) (learning_rate : ℚ) (iterations : ℕ)
    (rand_coeffs : List ℚ) (rand_intercept : ℚ)
    (hX : Rect X m n) (hy : y.length = m) (hm : 1 ≤ m)
    (hinv : ((toMat m (n + 1) (X.map (fun r => (1 : ℚ) :: r))).transpose *
        toMat m (n + 1) (X.map (fun r => (1 : ℚ) :: r))).det ≠ 0) :
    fit self (NpInput.two X) y "least_squares" learning_rate iterations
        rand_coeffs rand_intercept =
      Except.ok ({ self with
        intercept := some (normalEqWeights m n X y 0),
        coefficients :=
          some ((List.finRange n).map (fun j => normalEqWeights m n X y j.succ)) },
        none) := by
  have efit : fit self (NpInput.two X) y "least_squares" learning_rate iterations
      rand_coeffs rand_intercept =
      Except.ok (fit_multiple self (X.map (fun r => (1 : ℚ) :: r)) y, none) := rfl
  rw [efit]
  set Xb := X.map (fun r => (1 : ℚ) :: r) with hXbdef
  have hXb : Rect Xb m (n + 1) := biasAug_rect hX hm
  have hXt : Rect (transposeL Xb) (n + 1) m := transposeL_rect hXb (by omega)
  have hG : Rect (matMulL (transposeL Xb) Xb) (n + 1) (n + 1) :=
    matMulL_rect hXt hXb (by omega)
  have hInvR : Rect (np_linalg_inv (matMulL (transposeL Xb) Xb)) (n + 1) (n + 1) := by
    rw [np_linalg_inv_eq hG.1]
    exact matToList_rect _ (by omega)
  have hP : Rect (matMulL (np_linalg_inv (matMulL (transposeL Xb) Xb)) (transposeL Xb))
      (n + 1) m := matMulL_rect hInvR hXt (by omega)
  set A := toMat m (n + 1) Xb with hAdef
  have tT : toMat (n + 1) m (transposeL Xb) = A.transpose := toMat_transposeL hXb
  have tG : toMat (n + 1) (n + 1) (matMulL (transposeL Xb) Xb) = A.transpose * A := by
    rw [toMat_matMulL hXt hXb, tT]
  have tInv : toMat (n + 1) (n + 1) (np_linalg_inv (matMulL (transposeL Xb) Xb)) =
      (A.transpose * A)⁻¹ := by
    rw [np_linalg_inv_eq hG.1, toMat_matToList, tG]
  have tP : toMat (n + 1) m
      (matMulL (np_linalg_inv (matMulL (transposeL Xb) Xb)) (transposeL Xb)) =
      (A.transpose * A)⁻¹ * A.transpose := by
    rw [toMat_matMulL hInvR hXt, tInv, tT]
  set wl := matVecL
    (matMulL (np_linalg_inv (matMulL (transposeL Xb) Xb)) (transposeL Xb)) y with hwldef
  have hwlen : wl.length = n + 1 := by
    rw [hwldef, matVecL_length, hP.1]
  have entries : ∀ i : Fin (n + 1), wl.getD i 0 = normalEqWeights m n X y i := by
    intro i
    rw [hwldef, matVecL_getD hP hy i, tP]
    rfl
  have hwl : wl = (List.finRange (n + 1)).map (normalEqWeights m n X y) :=
    list_eq_finRange_map hwlen _ entries
  have efm : fit_multiple self Xb y =
      { self with intercept := some (wl.getD 0 0), coefficients := some wl.tail } := rfl
  rw [efm]
  have h0 : wl.getD 0 0 = normalEqWeights m n X y 0 := by
    have := entries 0
    simpa using this
  have htail : wl.tail = (List.finRange n).map (fun j => normalEqWeights m n X y j.succ) := by
    rw [hwl, List.finRange_succ, List.map_cons, List.tail_cons, List.map_map]
    rfl
  rw [h0, htail]

/-- Witness for C1 on the 2×1 design matrix `[[1],[2]]` with `y = [1,2]`. -/
theorem fit_least_squares_witness :
    (Rect [[1], [2]] 2 1 ∧ ([1, 2] : List ℚ).length = 2 ∧ 1 ≤ 2) ∧
    fit (LinearRegressor.mk none none) (NpInput.two [[1], [2]]) [1, 2]
        "least_squares" 0 1000 [] 0 =
      Except.ok
        (LinearRegressor.mk
          (some ((List.finRange 1).map
            (fun j => normalEqWeights 2 1 [[1], [2]] [1, 2] j.succ)))
          (some (normalEqWeights 2 1 [[1], [2]] [1, 2] 0)), none) :=
  ⟨⟨by decide, by decide, by decide⟩,
    fit_least_squares (LinearRegressor.mk none none) [[1], [2]] [1, 2] 2 1 0 1000 [] 0
      (by decide) (by decide) (by decide)
      (by
        have h : (toMat 2 (1 + 1) ([[1], [2]].map (fun r => (1 : ℚ) :: r))).transpose *
            toMat 2 (1 + 1) ([[1], [2]].map (fun r => (1 : ℚ) :: r)) =
            (Matrix.of ![![2, 3], ![3, 5]] : Matrix (Fin 2) (Fin 2) ℚ) := by
          funext i j
          rw [Matrix.mul_apply]
          fin_cases i <;> fin_cases j <;>
            simp [Fin.sum_univ_succ, toMat, Matrix.transpose_apply] <;> norm_num
        rw [h, Matrix.det_fin_two_of]
        norm_num)⟩

/-! ### C6: evaluate_regression -/

theorem sum_map_getD {α M : Type} [AddCommMonoid M] {l : List α} {n : ℕ}
    (h : l.length = n) (f : α → M) (d : α) :
    (l.map f).sum = ∑ i : Fin n, f (l.getD i d) := by
  induction n generalizing l with
  | zero =>
    rw [List.length_eq_zero] at h
    subst h; simp
  | succ n ih =>
    cases l with
    | nil => simp at h
    | cons x l' =>
      simp only [List.length_cons, Nat.succ_inj] at h
      rw [List.map_cons, List.sum_cons, Fin.sum_univ_succ]
      simp only [Fin.val_zero, List.getD_cons_zero, Fin.val_succ, List.getD_cons_succ]
      rw [ih h]

theorem sum_getD {M : Type} [AddCommMonoid M] {l : List M} {n : ℕ}
    (h : l.length = n) (d : M) : l.sum = ∑ i : Fin n, l.getD i d := by
  have := sum_map_getD h id d
  simpa using this

theorem sum_map_zipWith_getD {α β γ M : Type} [AddCommMonoid M]
    (g : α → β → γ) (f : γ → M) {a : List α} {b : List β} {n : ℕ}
    (ha : a.length = n) (hb : b.length = n) (da : α) (db : β) (dc : γ) :
    ((List.zipWith g a b).map f).sum =
      ∑ i : Fin n, f (g (a.getD i da) (b.getD i db)) := by
  have hlen : (List.zipWith g a b).length = n := by
    rw [List.length_zipWith, ha, hb]; omega
  rw [sum_map_getD hlen f dc]
  refine Finset.sum_congr rfl (fun i _ => ?_)
  rw [getD_zipWith_of_lt _ _ _ (by omega) (by omega) _ da db]

/-- C6: `evaluate_regression` returns a dictionary with exactly the three
keys `"R2"`, `"RMSE"`, `"MAE"`, whose values are
`R² = 1 − Σ(y−ŷ)²/Σ(y−mean y)²`, `RMSE = sqrt(mean (y−ŷ)²)` and
`MAE = mean |y−ŷ|`; and on `y_pred = y_true` (non-constant `y_true`) it
returns exactly `R² = 1`, `RMSE = 0`, `MAE = 0`. -/
theorem evaluate_regression_spec (y_true y_pred : List ℝ) (n : ℕ) (hn : 1 ≤ n)
    (ht : y_true.length = n) (hp : y_pred.length = n) :
    evaluate_regression y_true y_pred =
      [("R2", 1 - (∑ i : Fin n, (y_true.getD i 0 - y_pred.getD i 0) ^ 2) /
          (∑ i : Fin n, (y_true.getD i 0 - (∑ j : Fin n, y_true.getD j 0) / n) ^ 2)),
       ("RMSE", Real.sqrt (1 / (n : ℝ) * ∑ i : Fin n, (y_true.getD i 0 - y_pred.getD i 0) ^ 2)),
       ("MAE", 1 / (n : ℝ) * ∑ i : Fin n, |y_true.getD i 0 - y_pred.getD i 0|)] ∧
    (y_pred = y_true →
      (∑ i : Fin n, (y_true.getD i 0 - (∑ j : Fin n, y_true.getD j 0) / n) ^ 2) ≠ 0 →
      evaluate_regression y_true y_pred = [("R2", 1), ("RMSE", 0), ("MAE", 0)]) := by
  have hmean : npMean y_true = (∑ j : Fin n, y_true.getD j 0) / n := by
    rw [npMean, sum_getD ht 0, ht]
  have hrss : ((List.zipWith (· - ·) y_true y_pred).map (fun e => e ^ 2)).sum =
      ∑ i : Fin n, (y_true.getD i 0 - y_pred.getD i 0) ^ 2 :=
    sum_map_zipWith_getD _ _ ht hp 0 0 0
  have htss : ((y_true.map (fun v => v - npMean y_true)).map (fun e => e ^ 2)).sum =
      ∑ i : Fin n, (y_true.getD i 0 - (∑ j : Fin n, y_true.getD j 0) / n) ^ 2 := by
    rw [List.map_map, sum_map_getD ht _ 0]
    refine Finset.sum_congr rfl (fun i _ => ?_)
    simp [hmean]
  have hmae : ((List.zipWith (· - ·) y_true y_pred).map (fun e => |e|)).sum =
      ∑ i : Fin n, |y_true.getD i 0 - y_pred.getD i 0| :=
    sum_map_zipWith_getD _ _ ht hp 0 0 0
  have hmain : evaluate_regression y_true y_pred =
      [("R2", 1 - (∑ i : Fin n, (y_true.getD i 0 - y_pred.getD i 0) ^ 2) /
          (∑ i : Fin n, (y_true.getD i 0 - (∑ j : Fin n, y_true.getD j 0) / n) ^ 2)),
       ("RMSE", Real.sqrt (1 / (n : ℝ) * ∑ i : Fin n, (y_true.getD i 0 - y_pred.getD i 0) ^ 2)),
       ("MAE", 1 / (n : ℝ) * ∑ i : Fin n, |y_true.getD i 0 - y_pred.getD i 0|)] := by
    simp only [evaluate_regression, ht, hrss, htss, hmae]
  refine ⟨hmain, ?_⟩
  intro heq htss0
  subst heq
  rw [hmain]
  simp

/-- Witness for C6 on `y_true = y_pred = [1, 2]`. -/
theorem evaluate_regression_spec_witness :
    (1 ≤ 2 ∧ ([1, 2] : List ℝ).length = 2 ∧ ([1, 2] : List ℝ).length = 2) ∧
    evaluate_regression [1, 2] [1, 2] = [("R2", 1), ("RMSE", 0), ("MAE", 0)] :=
  ⟨⟨by norm_num, rfl, rfl⟩,
    (evaluate_regression_spec [1, 2] [1, 2] 2 (by norm_num) rfl rfl).2 rfl
      (by norm_num [Fin.sum_univ_two, List.getD_cons_zero, List.getD_cons_succ])⟩

/-! ### C4 and C5: one-hot encoding -/

/-- The label domain of original column `j` of `X`: its sorted distinct
values, with the first dropped when `drop_first` is set. -/
def labelsOf {α : Type} [LinearOrder α] (zero : α) (drop_first : Bool)
    (X : List (List α)) (j : ℕ) : List α :=
  let u := np_unique (X.map (fun r => r.getD j zero))
  if drop_first then u.tail else u

/-- The 0/1 indicator block a single cell value `c` expands to. -/
def indicatorRow {α : Type} [DecidableEq α] (zero one : α) (labels : List α)
    (c : α) : List α :=
  labels.map (fun u => if c = u then one else zero)

/-- Expand the cells of a row, starting at column position `j`, replacing the
cell at each position `p` by the block `f p c`. -/
def expandCells {α : Type} (f : ℕ → α → List α) : ℕ → List α → List α
  | _, [] => []
  | j, c :: cs => f j c ++ expandCells f (j + 1) cs

/-- The per-cell expansion of `one_hot_encode`: a cell in a categorical
column becomes its indicator block, any other cell stays. -/
def expandF {α : Type} [LinearOrder α] (zero one : α) (drop_first : Bool)
    (X : List (List α)) (idxs : List ℕ) : ℕ → α → List α :=
  fun j c =>
    if j ∈ idxs then indicatorRow zero one (labelsOf zero drop_first X j) c else [c]

theorem expandCells_append {α : Type} (f : ℕ → α → List α) (a b : List α) :
    ∀ j, expandCells f j (a ++ b) = expandCells f j a ++ expandCells f (j + a.length) b := by
  induction a with
  | nil => intro j; simp [expandCells]
  | cons x a' ih =>
    intro j
    simp only [List.cons_append, expandCells, List.length_cons, List.append_assoc,
      List.append_eq]
    rw [ih (j + 1)]
    have h : j + 1 + a'.length = j + (a'.length + 1) := by omega
    rw [h]

theorem expandCells_congr {α : Type} {f g : ℕ → α → List α} (l : List α) :
    ∀ j, (∀ p, j ≤ p → p < j + l.length → f p = g p) →
      expandCells f j l = expandCells g j l := by
  induction l with
  | nil => intro j _; rfl
  | cons x l' ih =>
    intro j h
    simp only [expandCells]
    rw [h j (le_refl j) (by simp), ih (j + 1) (fun p hp1 hp2 => h p (by omega) (by simp at hp2 ⊢; omega))]

theorem expandCells_id {α : Type} {f : ℕ → α → List α} (l : List α) :
    ∀ j, (∀ p, j ≤ p → p < j + l.length → ∀ c, f p c = [c]) →
      expandCells f j l = l := by
  induction l with
  | nil => intro j _; rfl
  | cons x l' ih =>
    intro j h
    simp only [expandCells]
    rw [h j (le_refl j) (by simp) x, ih (j + 1) (fun p hp1 hp2 c => h p (by omega) (by simp at hp2 ⊢; omega) c)]
    rfl

theorem getD_take_of_lt {α : Type} (r : List α) {i j : ℕ} (hj : j < i) (d : α) :
    (List.take i r).getD j d = r.getD j d := by
  rw [List.getD_eq_getElem?_getD, List.getElem?_take, if_pos hj,
    List.getD_eq_getElem?_getD]

/-- One pass of the encoder loop, described per row: row `r` becomes its
prefix below `index`, then the indicator block of its cell at `index`, then
its suffix above `index`. -/
theorem one_hot_step_eq_map {α : Type} [LinearOrder α] (zero one : α)
    (drop_first : Bool) (Xt : List (List α)) (index : ℕ) :
    one_hot_step zero one drop_first Xt index =
      Xt.map (fun r => List.take index (r.eraseIdx index) ++
        indicatorRow zero one (labelsOf zero drop_first Xt index) (r.getD index zero) ++
        List.drop index (r.eraseIdx index)) := by
  show List.zipWith _ (Xt.map _) ((Xt.map _).map _) = _
  rw [List.map_map, List.zipWith_map, List.zipWith_same]
  rfl

/-- One pass of the encoder loop on a rectangular matrix, with the erased-row
bookkeeping simplified: prefix, indicator block, suffix. -/
theorem one_hot_step_eq_map_rect {α : Type} [LinearOrder α] (zero one : α)
    (drop_first : Bool) (Xt : List (List α)) (index w : ℕ)
    (hrows : ∀ r ∈ Xt, r.length = w) (hi : index < w) :
    one_hot_step zero one drop_first Xt index =
      Xt.map (fun r => List.take index r ++
        indicatorRow zero one (labelsOf zero drop_first Xt index) (r.getD index zero) ++
        List.drop (index + 1) r) := by
  rw [one_hot_step_eq_map]
  refine List.map_congr_left (fun r hr => ?_)
  have hlen : r.length = w := hrows r hr
  rw [List.eraseIdx_eq_take_drop_succ,
    List.take_left' (by rw [List.length_take]; omega),
    List.drop_left' (by rw [List.length_take]; omega)]

theorem step_col_eq {α : Type} [LinearOrder α] (zero one : α)
    (drop_first : Bool) (Xt : List (List α)) (index w : ℕ) {j : ℕ}
    (hrows : ∀ r ∈ Xt, r.length = w) (hi : index < w) (hj : j < index) :
    (one_hot_step zero one drop_first Xt index).map (fun r => r.getD j zero) =
      Xt.map (fun r => r.getD j zero) := by
  rw [one_hot_step_eq_map_rect zero one drop_first Xt index w hrows hi, List.map_map]
  refine List.map_congr_left (fun r hr => ?_)
  have hlen : r.length = w := hrows r hr
  show (List.take index r ++ _ ++ List.drop (index + 1) r).getD j zero = r.getD j zero
  rw [List.append_assoc,
    List.getD_append _ _ _ _ (by rw [List.length_take]; omega),
    getD_take_of_lt r hj zero]

theorem labelsOf_step {α : Type} [LinearOrder α] (zero one : α)
    (drop_first : Bool) (Xt : List (List α)) (index w : ℕ) {j : ℕ}
    (hrows : ∀ r ∈ Xt, r.length = w) (hi : index < w) (hj : j < index) :
    labelsOf zero drop_first (one_hot_step zero one drop_first Xt index) j =
      labelsOf zero drop_first Xt j := by
  simp only [labelsOf, np_unique]
  rw [step_col_eq zero one drop_first Xt index w hrows hi hj]

theorem step_row_length {α : Type} [LinearOrder α] (zero one : α)
    (drop_first : Bool) (Xt : List (List α)) (index w : ℕ)
    (hrows : ∀ r ∈ Xt, r.length = w) (hi : index < w) :
    ∀ r' ∈ one_hot_step zero one drop_first Xt index,
      r'.length = index + (labelsOf zero drop_first Xt index).length + (w - (index + 1)) := by
  rw [one_hot_step_eq_map_rect zero one drop_first Xt index w hrows hi]
  intro r' hr'
  obtain ⟨r, hr, rfl⟩ := List.mem_map.mp hr'
  have hlen : r.length = w := hrows r hr
  simp only [List.length_append, List.length_take, List.length_drop, indicatorRow,
    List.length_map, hlen]
  omega

/-- Per-row effect of one encoder pass, as seen through a later cellwise
expansion whose indices all lie below the processed column. -/
theorem expand_row_step {α : Type} [LinearOrder α] (zero one : α) (drop_first : Bool)
    (X X' : List (List α)) (i : ℕ) (rest : List ℕ)
    (hlabels : ∀ j ∈ rest, labelsOf zero drop_first X' j = labelsOf zero drop_first X j)
    (hrest_lt_i : ∀ j ∈ rest, j < i)
    (r : List α) (hri : i < r.length) :
    expandCells (expandF zero one drop_first X' rest) 0
        (List.take i r ++
          indicatorRow zero one (labelsOf zero drop_first X i) (r.getD i zero) ++
          List.drop (i + 1) r) =
      expandCells (expandF zero one drop_first X (i :: rest)) 0 r := by
  have htake : (List.take i r).length = i := by rw [List.length_take]; omega
  rw [List.append_assoc, expandCells_append, htake, Nat.zero_add]
  have hid1 : expandCells (expandF zero one drop_first X' rest) i
      (indicatorRow zero one (labelsOf zero drop_first X i) (r.getD i zero) ++
        List.drop (i + 1) r) =
      indicatorRow zero one (labelsOf zero drop_first X i) (r.getD i zero) ++
        List.drop (i + 1) r := by
    refine expandCells_id _ i (fun p hp1 _ c => ?_)
    have hpc : p ∉ rest := fun hmem => absurd (hrest_lt_i p hmem) (by omega)
    simp [expandF, hpc]
  rw [hid1]
  have hdecomp : List.take i r ++ r.getD i zero :: List.drop (i + 1) r = r := by
    conv_rhs => rw [← List.take_append_drop i r]
    congr 1
    rw [List.drop_eq_getElem_cons hri, List.getD_eq_getElem r zero hri]
  conv_rhs => rw [← hdecomp]
  rw [expandCells_append, htake, Nat.zero_add]
  have hcons : expandCells (expandF zero one drop_first X (i :: rest)) i
      (r.getD i zero :: List.drop (i + 1) r) =
      expandF zero one drop_first X (i :: rest) i (r.getD i zero) ++
        expandCells (expandF zero one drop_first X (i :: rest)) (i + 1)
          (List.drop (i + 1) r) := rfl
  rw [hcons]
  have hfi : expandF zero one drop_first X (i :: rest) i (r.getD i zero) =
      indicatorRow zero one (labelsOf zero drop_first X i) (r.getD i zero) := by
    simp [expandF]
  have hid2 : expandCells (expandF zero one drop_first X (i :: rest)) (i + 1)
      (List.drop (i + 1) r) = List.drop (i + 1) r := by
    refine expandCells_id _ (i + 1) (fun p hp1 _ c => ?_)
    have hpi : p ≠ i := by omega
    have hpc : p ∉ rest := fun hmem => absurd (hrest_lt_i p hmem) (by omega)
    simp [expandF, hpi, hpc]
  rw [hfi, hid2]
  have hcongr : expandCells (expandF zero one drop_first X' rest) 0 (List.take i r) =
      expandCells (expandF zero one drop_first X (i :: rest)) 0 (List.take i r) := by
    refine expandCells_congr _ 0 (fun p _ hp2 => ?_)
    rw [Nat.zero_add, htake] at hp2
    funext c
    by_cases hp : p ∈ rest
    · simp only [expandF, if_pos hp, if_pos (List.mem_cons_of_mem i hp)]
      rw [hlabels p hp]
    · have hpi : p ≠ i := by omega
      have : p ∉ i :: rest := by simp [hpi, hp]
      simp only [expandF, if_neg hp, if_neg this]
  rw [hcongr]

/-- The encoder loop over a strictly descending list of in-range column
indices expands every row cellwise. -/
theorem foldl_one_hot_step_eq {α : Type} [LinearOrder α] (zero one : α)
    (drop_first : Bool) :
    ∀ (idxs : List ℕ) (X : List (List α)) (w : ℕ),
      (∀ r ∈ X, r.length = w) →
      List.Pairwise (fun a b => b < a) idxs →
      (∀ i ∈ idxs, i < w) →
      idxs.foldl (one_hot_step zero one drop_first) X =
        X.map (fun row => expandCells (expandF zero one drop_first X idxs) 0 row) := by
  intro idxs
  induction idxs with
  | nil =>
    intro X w hrows _ _
    simp only [List.foldl_nil]
    have h : ∀ r ∈ X, expandCells (expandF zero one drop_first X []) 0 r = r :=
      fun r _ => expandCells_id r 0 (fun p _ _ c => by simp [expandF])
    calc X = X.map id := (List.map_id X).symm
      _ = X.map (fun row => expandCells (expandF zero one drop_first X []) 0 row) :=
        (List.map_congr_left (fun r hr => h r hr)).symm
  | cons i rest ih =>
    intro X w hrows hpair hlt
    have hi : i < w := hlt i (List.mem_cons_self i rest)
    have hrest_lt_i : ∀ j ∈ rest, j < i := fun j hj => (List.pairwise_cons.mp hpair).1 j hj
    have hpair' : List.Pairwise (fun a b => b < a) rest := (List.pairwise_cons.mp hpair).2
    have hrows' : ∀ r' ∈ one_hot_step zero one drop_first X i,
        r'.length = i + (labelsOf zero drop_first X i).length + (w - (i + 1)) :=
      step_row_length zero one drop_first X i w hrows hi
    have hlt' : ∀ j ∈ rest,
        j < i + (labelsOf zero drop_first X i).length + (w - (i + 1)) :=
      fun j hj => lt_of_lt_of_le (hrest_lt_i j hj) (by omega)
    have hlabels : ∀ j ∈ rest,
        labelsOf zero drop_first (one_hot_step zero one drop_first X i) j =
          labelsOf zero drop_first X j :=
      fun j hj => labelsOf_step zero one drop_first X i w hrows hi (hrest_lt_i j hj)
    have hmap := one_hot_step_eq_map_rect zero one drop_first X i w hrows hi
    simp only [List.foldl_cons]
    rw [ih (one_hot_step zero one drop_first X i) _ hrows' hpair' hlt']
    rw [show (one_hot_step zero one drop_first X i).map
          (fun row => expandCells
            (expandF zero one drop_first (one_hot_step zero one drop_first X i) rest)
            0 row) =
        (X.map (fun r => List.take i r ++
          indicatorRow zero one (labelsOf zero drop_first X i) (r.getD i zero) ++
          List.drop (i + 1) r)).map
          (fun row => expandCells
            (expandF zero one drop_first (one_hot_step zero one drop_first X i) rest)
            0 row)
      from congrArg _ hmap]
    rw [List.map_map]
    refine List.map_congr_left (fun r hr => ?_)
    exact expand_row_step zero one drop_first X (one_hot_step zero one drop_first X i)
      i rest hlabels hrest_lt_i r (by rw [hrows r hr]; exact hi)

/-- `one_hot_encode` characterised row by row: each row is its cellwise
expansion, where a cell of a categorical column becomes the 0/1 indicator
block over that column's (possibly first-dropped) sorted value domain and
every other cell is kept, in original column order. -/
theorem one_hot_encode_eq_expand {α : Type} [LinearOrder α] (zero one : α)
    (X : List (List α)) (categorical_indices : List ℕ) (drop_first : Bool)
    (w : ℕ) (hrows : ∀ r ∈ X, r.length = w) (hnd : categorical_indices.Nodup)
    (hlt : ∀ i ∈ categorical_indices, i < w) :
    one_hot_encode zero one X categorical_indices drop_first =
      X.map (fun row =>
        expandCells (expandF zero one drop_first X categorical_indices) 0 row) := by
  have hperm : (List.insertionSort (· ≤ ·) categorical_indices).reverse.Perm
      categorical_indices :=
    (List.reverse_perm _).trans (List.perm_insertionSort _ categorical_indices)
  have hsorted : List.Pairwise (· ≤ ·) (List.insertionSort (· ≤ ·) categorical_indices) :=
    List.sorted_insertionSort (· ≤ ·) categorical_indices
  have hnd' : (List.insertionSort (· ≤ ·) categorical_indices).Nodup :=
    ((List.perm_insertionSort _ categorical_indices).symm).nodup hnd
  have hlt_sorted : List.Pairwise (· < ·)
      (List.insertionSort (· ≤ ·) categorical_indices) :=
    (hsorted.and hnd').imp (fun h => lt_of_le_of_ne h.1 h.2)
  have hdesc : List.Pairwise (fun a b => b < a)
      (List.insertionSort (· ≤ ·) categorical_indices).reverse :=
    List.pairwise_reverse.mpr hlt_sorted
  have hrange : ∀ i ∈ (List.insertionSort (· ≤ ·) categorical_indices).reverse, i < w :=
    fun i hi => hlt i (hperm.mem_iff.mp hi)
  show (List.insertionSort (· ≤ ·) categorical_indices).reverse.foldl
      (one_hot_step zero one drop_first) X = _
  rw [foldl_one_hot_step_eq zero one drop_first _ X w hrows hdesc hrange]
  have hF : expandF zero one drop_first X
      (List.insertionSort (· ≤ ·) categorical_indices).reverse =
      expandF zero one drop_first X categorical_indices := by
    funext j c
    simp only [expandF]
    by_cases hj : j ∈ categorical_indices
    · rw [if_pos (hperm.mem_iff.mpr hj), if_pos hj]
    · rw [if_neg (fun hmem => hj (hperm.mem_iff.mp hmem)), if_neg hj]
  rw [hF]

/-- C4: `one_hot_encode` replaces each listed categorical column (processed
in descending index order) by one 0/1 indicator column per label of its
sorted distinct-value domain (first label dropped when `drop_first`), each
indicator cell being 1 exactly where the original cell equals that label,
spliced at the original column position with all other columns kept in
relative order; and the two concrete examples from the spec (numpy coerces
the mixed `[[1,"a"],…]` literal to single-character strings, modelled as
`Char` cells with `'0'`/`'1'` indicators). -/
theorem one_hot_encode_spec :
    (∀ (α : Type) [LinearOrder α] (zero one : α) (X : List (List α))
        (categorical_indices : List ℕ) (drop_first : Bool) (w : ℕ),
      (∀ r ∈ X, r.length = w) → categorical_indices.Nodup →
      (∀ i ∈ categorical_indices, i < w) →
      one_hot_encode zero one X categorical_indices drop_first =
        X.map (fun row =>
          expandCells (expandF zero one drop_first X categorical_indices) 0 row)) ∧
    one_hot_encode '0' '1' [['1', 'a'], ['2', 'b'], ['3', 'a']] [1] false =
      [['1', '1', '0'], ['2', '0', '1'], ['3', '1', '0']] ∧
    one_hot_encode '0' '1' [['1', 'a'], ['2', 'b'], ['3', 'a']] [1] true =
      [['1', '0'], ['2', '1'], ['3', '0']] := by
  refine ⟨?_, by decide, by decide⟩
  intro α inst zero one X categorical_indices drop_first w hrows hnd hlt
  exact one_hot_encode_eq_expand zero one X categorical_indices drop_first w hrows hnd hlt

/-- Witness for C4: the general row characterisation applied to the concrete
example input. -/
theorem one_hot_encode_spec_witness :
    ((∀ r ∈ ([['1', 'a'], ['2', 'b'], ['3', 'a']] : List (List Char)), r.length = 2) ∧
      ([1] : List ℕ).Nodup ∧ ∀ i ∈ ([1] : List ℕ), i < 2) ∧
    one_hot_encode '0' '1' [['1', 'a'], ['2', 'b'], ['3', 'a']] [1] false =
      ([['1', 'a'], ['2', 'b'], ['3', 'a']] : List (List Char)).map (fun row =>
        expandCells (expandF '0' '1' false [['1', 'a'], ['2', 'b'], ['3', 'a']] [1]) 0 row) :=
  ⟨⟨by decide, by decide, by decide⟩,
    one_hot_encode_spec.1 Char '0' '1' [['1', 'a'], ['2', 'b'], ['3', 'a']] [1] false 2
      (by decide) (by decide) (by decide)⟩

theorem expandCells_length {α : Type} (f : ℕ → α → List α) (g : ℕ → ℕ)
    (hg : ∀ p c, (f p c).length = g p) (l : List α) :
    ∀ j, (expandCells f j l).length = ((List.range' j l.length).map g).sum := by
  induction l with
  | nil => intro j; simp [expandCells]
  | cons x l' ih =>
    intro j
    simp only [expandCells, List.length_append, List.length_cons, List.range'_succ,
      List.map_cons, List.sum_cons, hg j x, ih (j + 1)]

theorem sum_map_range (g : ℕ → ℕ) : ∀ w, ((List.range w).map g).sum = ∑ p ∈ Finset.range w, g p := by
  intro w
  induction w with
  | zero => simp
  | succ n ih =>
    rw [List.range_succ, List.map_append, List.sum_append, Finset.sum_range_succ, ih]
    simp

theorem sum_ite_mem_range (w : ℕ) (idxs : List ℕ) (D : ℕ → ℕ)
    (hnd : idxs.Nodup) (hlt : ∀ i ∈ idxs, i < w) :
    (∑ p ∈ Finset.range w, if p ∈ idxs then D p else 1) =
      (w - idxs.length) + (idxs.map D).sum := by
  rw [Finset.sum_ite]
  have hfilter : Finset.filter (fun p => p ∈ idxs) (Finset.range w) = idxs.toFinset := by
    ext p
    simp only [Finset.mem_filter, Finset.mem_range, List.mem_toFinset]
    exact ⟨fun h => h.2, fun h => ⟨hlt p h, h⟩⟩
  have hcard : (Finset.filter (fun p => ¬ p ∈ idxs) (Finset.range w)).card =
      w - idxs.length := by
    have h := @Finset.filter_card_add_filter_neg_card_eq_card ℕ (Finset.range w)
      (fun p => p ∈ idxs) (fun p => List.instDecidableMemOfLawfulBEq p idxs)
      (fun p => instDecidableNot)
    rw [hfilter, Finset.card_range, List.toFinset_card_of_nodup hnd] at h
    omega
  rw [hfilter, List.sum_toFinset D hnd, Finset.sum_const, smul_eq_mul, mul_one, hcard]
  omega

/-- C5: every row of the encoded output has length
`(original column count − number of categorical columns) + Σ (domain size −
(1 if drop_first else 0))` over the categorical columns. -/
theorem one_hot_encode_width {α : Type} [LinearOrder α] (zero one : α)
    (X : List (List α)) (categorical_indices : List ℕ) (drop_first : Bool)
    (m w : ℕ) (hX : Rect X m w) (hm : 1 ≤ m) (hnd : categorical_indices.Nodup)
    (hlt : ∀ i ∈ categorical_indices, i < w) :
    ∀ row ∈ one_hot_encode zero one X categorical_indices drop_first,
      row.length = (w - categorical_indices.length) +
        (categorical_indices.map (fun i =>
          (np_unique (X.map (fun r => r.getD i zero))).length -
            (if drop_first then 1 else 0))).sum := by
  intro row hrow
  rw [one_hot_encode_eq_expand zero one X categorical_indices drop_first w
    hX.2.2 hnd hlt] at hrow
  obtain ⟨r, hr, rfl⟩ := List.mem_map.mp hrow
  have hg : ∀ p c, (expandF zero one drop_first X categorical_indices p c).length =
      (fun p => if p ∈ categorical_indices
        then (labelsOf zero drop_first X p).length else 1) p := by
    intro p c
    simp only [expandF]
    by_cases hp : p ∈ categorical_indices
    · simp [hp, indicatorRow]
    · simp [hp]
  rw [expandCells_length _ _ hg r 0, hX.2.2 r hr, ← List.range_eq_range',
    sum_map_range, sum_ite_mem_range w categorical_indices _ hnd hlt]
  congr 1
  refine congrArg List.sum (List.map_congr_left (fun i hi => ?_))
  simp only [labelsOf]
  by_cases hd : drop_first
  · simp [hd, List.length_tail]
  · simp [hd]

/-- Witness for C5 at the drop-first example: the first output row has
length 2 − 1 + (2 − 1) = 2. -/
theorem one_hot_encode_width_witness :
    (Rect ([['1', 'a'], ['2', 'b'], ['3', 'a']] : List (List Char)) 3 2 ∧ 1 ≤ 3 ∧
      ([1] : List ℕ).Nodup ∧ (∀ i ∈ ([1] : List ℕ), i < 2) ∧
      (['1', '0'] : List Char) ∈
        one_hot_encode '0' '1' [['1', 'a'], ['2', 'b'], ['3', 'a']] [1] true) ∧
    (['1', '0'] : List Char).length = (2 - ([1] : List ℕ).length) +
      (([1] : List ℕ).map (fun i =>
        (np_unique (([['1', 'a'], ['2', 'b'], ['3', 'a']] : List (List Char)).map
          (fun r => r.getD i '0'))).length - (if true then 1 else 0))).sum :=
  ⟨⟨by decide, by decide, by decide, by decide, by decide⟩,
    one_hot_encode_width '0' '1' [['1', 'a'], ['2', 'b'], ['3', 'a']] [1] true 3 2
      (by decide) (by decide) (by decide) (by decide) ['1', '0'] (by decide)⟩
